import Mathlib

/-!
Verification of the proof-of-work blockchain node (`src/blockchain.py`).

The Python module is shallowly embedded below.  Python strings are
represented as lists of characters (`Str`), Python's dynamically typed
`previous_hash` field (an `int` for the genesis sentinel, a hex-digest
string otherwise) as the sum type `PyVal`, and Python's truthiness test
(`previous_hash or ...`, `if new_chain:`) as `PyVal.truthy` /
`List.isEmpty`.  The SHA-256 digest and the JSON serialisation of a block
(`hashlib.sha256`, `json.dumps(block, sort_keys=True)`) are uninterpreted
functions collected in a `HashModel`: every theorem below is proved for an
arbitrary model, so nothing depends on the value of a digest, only on how
the module uses it.  Operations that can raise a Python exception
(`IndexError` on `chain[0]` / `chain[-1]`, `ValueError` in
`register_node`, a `requests` transport error in `resolve_conflicts`)
return `Option`, with `none` marking the raised exception.  The unbounded
`while` loop of `proof_of_work` is given explicit fuel.  Timestamps
(`time()`) are supplied as explicit arguments.
-/

namespace Blockchain

/-- Python strings, embedded as lists of characters. -/
abbrev Str := List Char

/-- A Lean string literal viewed as a Python string. -/
def pyStr (s : String) : Str := s.toList

/-- A pending or committed transaction: the dict
`{"sender": ..., "recipient": ..., "amount": ...}` built by
`new_transaction`. -/
structure Transaction where
  sender : Str
  recipient : Str
  amount : Int
deriving DecidableEq

/-- A dynamically typed Python value as stored in the `previous_hash`
field of a block: the genesis block stores the `int` `1`, every other
block stores a digest string. -/
inductive PyVal where
  | vInt : Int → PyVal
  | vStr : Str → PyVal
deriving DecidableEq

/-- Python truthiness for the values that reach `previous_hash or ...`:
an `int` is truthy iff non-zero, a string iff non-empty. -/
def PyVal.truthy : PyVal → Bool
  | .vInt n => n != 0
  | .vStr s => !s.isEmpty

/-- A block dict as built by `new_block`. -/
structure Block where
  index : Nat
  timestamp : Nat
  transactions : List Transaction
  proof : Nat
  previous_hash : PyVal
deriving DecidableEq

/-- The two external functions the module applies to data:
`sha256hex s` is `hashlib.sha256(s.encode()).hexdigest()` and `dumps b` is
`json.dumps(block, sort_keys=True)`.  Both are kept uninterpreted. -/
structure HashModel where
  sha256hex : Str → Str
  dumps : Block → Str

/-- Embedding of `Blockchain.hash`: the SHA-256 hex digest of the canonical JSON
serialisation of a block. -/
def hash (M : HashModel) (block : Block) : Str :=
  M.sha256hex (M.dumps block)

/-- Embedding of `Blockchain.valid_proof`: build the guess string
`f"{last_proof}{proof}{last_hash}"`, digest it, and test whether the
first six characters of the hex digest are `"000000"`
(`guess_hash[:6] == "000000"`). -/
def valid_proof (sha256hex : Str → Str) (last_proof proof : Nat) (last_hash : Str) : Bool :=
  let guess : Str := pyStr (toString last_proof) ++ pyStr (toString proof) ++ last_hash
  let guess_hash : Str := sha256hex guess
  guess_hash.take 6 == pyStr "000000"

/-- The loop body of `Blockchain.proof_of_work`: starting from `proof`,
increment until `valid_proof` succeeds.  The Python loop is unbounded;
`fuel` bounds the embedded search, `none` meaning the bound was hit
before a valid proof was found. -/
def powSearch (sha256hex : Str → Str) (last_proof : Nat) (last_hash : Str) :
    Nat → Nat → Option Nat
  | _, 0 => none
  | proof, fuel + 1 =>
    if valid_proof sha256hex last_proof proof last_hash then some proof
    else powSearch sha256hex last_proof last_hash (proof + 1) fuel

/-- Embedding of `Blockchain.proof_of_work`: linear search from `0` for a proof valid
against the previous block's proof and hash. -/
def proof_of_work (M : HashModel) (last_block : Block) (fuel : Nat) : Option Nat :=
  let last_proof := last_block.proof
  let last_hash := hash M last_block
  powSearch M.sha256hex last_proof last_hash 0 fuel

/-- The mutable node state: `self.chain`, `self.current_transactions`,
`self.nodes` (the peer set, modelled as a duplicate-free list). -/
structure State where
  chain : List Block
  current_transactions : List Transaction
  nodes : List Str
deriving DecidableEq

/-- Embedding of `Blockchain.new_block`: build the block dict (with
`previous_hash or self.hash(self.chain[-1])` — the fallback digest is
used when the argument is omitted *or falsy*), clear the pending pool and
append the block.  `none` models the `IndexError` raised by `chain[-1]`
on an empty chain when the fallback is needed. -/
def new_block (M : HashModel) (t : Nat) (s : State) (proof : Nat)
    (previous_hash : Option PyVal) : Option (State × Block) :=
  let fallback : Option PyVal := s.chain.getLast?.map (fun b => PyVal.vStr (hash M b))
  let ph : Option PyVal :=
    match previous_hash with
    | some v => if v.truthy then some v else fallback
    | none => fallback
  match ph with
  | none => none
  | some pv =>
    let block : Block :=
      { index := s.chain.length + 1
        timestamp := t
        transactions := s.current_transactions
        proof := proof
        previous_hash := pv }
    some ({ s with chain := s.chain ++ [block], current_transactions := [] }, block)

/-- Embedding of `Blockchain.new_transaction`: append the transaction dict to the
pending pool and return `self.last_block["index"] + 1` (`none` for the
`IndexError` on an empty chain). -/
def new_transaction (s : State) (sender recipient : Str) (amount : Int) :
    State × Option Nat :=
  let s' := { s with current_transactions :=
      s.current_transactions ++ [{ sender := sender, recipient := recipient, amount := amount }] }
  (s', s.chain.getLast?.map (fun b => b.index + 1))

/-- Embedding of `Blockchain.__init__`: empty chain, pool and peer set, then
`new_block(previous_hash=1, proof=100)` creates the genesis block. -/
def freshBlockchain (M : HashModel) (t : Nat) : Option State :=
  let s0 : State := { chain := [], current_transactions := [], nodes := [] }
  (new_block M t s0 100 (some (PyVal.vInt 1))).map Prod.fst

/-- The inner `while` of `Blockchain.valid_chain`: walk the chain pair by
pair, returning `false` at the first pair whose `previous_hash` link or
proof of work fails. -/
def validChainLoop (M : HashModel) : Block → List Block → Bool
  | _, [] => true
  | last_block, block :: rest =>
    let last_block_hash := hash M last_block
    if block.previous_hash ≠ PyVal.vStr last_block_hash then false
    else if !valid_proof M.sha256hex last_block.proof block.proof last_block_hash then false
    else validChainLoop M block rest

/-- Embedding of `Blockchain.valid_chain`: `chain[0]` is read unconditionally before
the loop, so the empty chain raises `IndexError` (`none`). -/
def valid_chain (M : HashModel) (chain : List Block) : Option Bool :=
  match chain with
  | [] => none
  | last_block :: rest => some (validChainLoop M last_block rest)

/-- Characters allowed in a URL scheme by `urllib.parse`: letters, digits
and `+`, `-`, `.`. -/
def isSchemeChar (c : Char) : Bool :=
  c.isAlpha || c.isDigit || c == '+' || c == '-' || c == '.'

/-- Model of the scheme-splitting step of `urllib.parse.urlparse`: when
the input has a colon, the part before the first colon starts with a
letter and consists of scheme characters only, drop `scheme:`; otherwise
leave the input unchanged. -/
def splitScheme : Str → Str
  | [] => []
  | c :: rest =>
    let url := c :: rest
    let before := url.takeWhile (fun x => x != ':')
    if c.isAlpha && before.all isSchemeChar && before.length < url.length then
      url.drop (before.length + 1)
    else url

/-- Model of the netloc-splitting step of `urllib.parse.urlparse`: after
the scheme is removed, a leading `//` introduces the network location,
which extends to the next `/`, `?` or `#`. -/
def netlocSplit : Str → Str × Str
  | '/' :: '/' :: rest =>
    let netloc := rest.takeWhile (fun c => c != '/' && c != '?' && c != '#')
    (netloc, rest.drop netloc.length)
  | u => ([], u)

/-- The `netloc` and `path` components of a parsed URL (the only
components `register_node` reads). -/
structure ParsedUrl where
  netloc : Str
  path : Str
deriving DecidableEq

/-- Model of `urllib.parse.urlparse`, restricted to the `netloc` and
`path` components: optional `scheme:` removal, optional `//netloc`, and
the path runs to the first `?` or `#`. -/
def urlparse (address : Str) : ParsedUrl :=
  let u := splitScheme address
  let (netloc, rest) := netlocSplit u
  { netloc := netloc, path := rest.takeWhile (fun c => c != '?' && c != '#') }

/-- Insertion into the peer set `self.nodes` (a Python `set`, modelled as
a duplicate-free list). -/
def setAdd (nodes : List Str) (x : Str) : List Str :=
  if x ∈ nodes then nodes else nodes ++ [x]

/-- Embedding of `Blockchain.register_node`: add `parsed_url.netloc` when it is
non-empty, else `parsed_url.path` when it is non-empty, else raise
`ValueError("Invalid URL")` (`none`). -/
def register_node (nodes : List Str) (address : Str) : Option (List Str) :=
  let parsed_url := urlparse address
  if !parsed_url.netloc.isEmpty then some (setAdd nodes parsed_url.netloc)
  else if !parsed_url.path.isEmpty then some (setAdd nodes parsed_url.path)
  else none

/-- The outcome of `requests.get(f"http://{node}/chain")` for one peer:
either a raised transport exception, or an HTTP response carrying a
status code and the parsed JSON fields `length` and `chain`. -/
inductive FetchOutcome where
  | exn : FetchOutcome
  | response : Nat → Int → List Block → FetchOutcome
deriving DecidableEq

/-- The peer loop of `Blockchain.resolve_conflicts`, carrying the running
`max_length` and `new_chain`.  A transport exception propagates (`none`),
a non-200 response is skipped, and a 200 response longer than
`max_length` is adopted when `valid_chain` accepts it (an `IndexError`
inside `valid_chain` also propagates). -/
def resolveLoop (M : HashModel) :
    Int → Option (List Block) → List FetchOutcome → Option (Option (List Block))
  | _, new_chain, [] => some new_chain
  | max_length, new_chain, f :: rest =>
    match f with
    | .exn => none
    | .response status length chain =>
      if status == 200 then
        if length > max_length then
          match valid_chain M chain with
          | none => none
          | some true => resolveLoop M length (some chain) rest
          | some false => resolveLoop M max_length new_chain rest
        else resolveLoop M max_length new_chain rest
      else resolveLoop M max_length new_chain rest

/-- Embedding of `Blockchain.resolve_conflicts`, applied to the fetch outcomes of the
registered peers in iteration order.  Returns the new chain together
with the boolean result; `none` models an uncaught exception.  The final
`if new_chain:` is Python truthiness on an optional list. -/
def resolve_conflicts (M : HashModel) (chain : List Block)
    (fetches : List FetchOutcome) : Option (List Block × Bool) :=
  match resolveLoop M (chain.length : Int) none fetches with
  | none => none
  | some none => some (chain, false)
  | some (some new_chain) =>
    if new_chain.isEmpty then some (chain, false) else some (new_chain, true)

/-- The `/mine` route: read `last_block`, run `proof_of_work`, award the
reward transaction `{"sender": "0", "recipient": node_identifier,
"amount": 1}`, then commit with `new_block(proof, hash(last_block))`. -/
def mine (M : HashModel) (t : Nat) (node_identifier : Str) (s : State)
    (fuel : Nat) : Option (State × Block) :=
  match s.chain.getLast? with
  | none => none
  | some last_block =>
    match proof_of_work M last_block fuel with
    | none => none
    | some proof =>
      let s1 := (new_transaction s (pyStr "0") node_identifier 1).1
      let previous_hash := hash M last_block
      new_block M t s1 proof (some (PyVal.vStr previous_hash))

/-- The ledger states reachable from a fresh `Blockchain` through the
documented operations: construction, transaction submission, the
mine-then-commit sequence of the `/mine` route, and consensus
resolution. -/
inductive Reachable (M : HashModel) : State → Prop where
  | init : ∀ t s, freshBlockchain M t = some s → Reachable M s
  | tx : ∀ s sender recipient amount, Reachable M s →
      Reachable M (new_transaction s sender recipient amount).1
  | mined : ∀ s t node_identifier fuel s' b, Reachable M s →
      mine M t node_identifier s fuel = some (s', b) → Reachable M s'
  | consensus : ∀ s fetches c r, Reachable M s →
      resolve_conflicts M s.chain fetches = some (c, r) →
      Reachable M { s with chain := c }

/-- The hash-link and proof-of-work relation between two adjacent
blocks, as checked by `valid_chain` and maintained by `new_block`. -/
def linkOK (M : HashModel) (prev curr : Block) : Prop :=
  curr.previous_hash = PyVal.vStr (hash M prev)
    ∧ valid_proof M.sha256hex prev.proof curr.proof (hash M prev) = true

/-- The chain-linking invariant in the indexed form of the
specification: every block beyond the first points at the hash of its
predecessor and carries a proof valid against it. -/
def adjacentOK (M : HashModel) (c : List Block) : Prop :=
  ∀ i, 0 < i → ∀ (hi : i < c.length),
    linkOK M (c.get ⟨i - 1, by omega⟩) (c.get ⟨i, hi⟩)

/-- Predicate taken from the specification's words: the hexadecimal
digest "begins with six '0' characters". -/
def beginsWithSixZeros (s : Str) : Prop :=
  List.replicate 6 '0' <+: s

/-- A concrete hash model for witnesses: every digest is `"000000"`, so
every proof of work is valid and mining finds `0` immediately. -/
def Mz : HashModel := ⟨fun _ => pyStr "000000", fun _ => []⟩

/-- A concrete hash model whose digests are the non-empty string `"d"`
(which never begins with six zeros). -/
def Md : HashModel := ⟨fun _ => pyStr "d", fun _ => []⟩

/-- The genesis block of a node constructed at timestamp `0`. -/
def g0 : Block := ⟨1, 0, [], 100, PyVal.vInt 1⟩

/-- The state of a node freshly constructed at timestamp `0`. -/
def st0 : State := ⟨[g0], [], []⟩

/-- The block the `/mine` route commits on top of `st0` under `Mz` at
timestamp `1` (it contains only the reward transaction). -/
def b1 : Block := ⟨2, 1, [⟨pyStr "0", [], 1⟩], 0, PyVal.vStr (pyStr "000000")⟩

/-- The two-block state after mining once on `st0` under `Mz`. -/
def st2 : State := ⟨[g0, b1], [], []⟩

/-- A lone block used as a one-element peer chain. -/
def shortB : Block := ⟨1, 5, [], 7, PyVal.vInt 1⟩

/-- Sample transactions for the pool-draining scenario. -/
def txA : Transaction := ⟨pyStr "a", pyStr "b", 2⟩

/-- Second sample transaction. -/
def txB : Transaction := ⟨pyStr "c", pyStr "d", 3⟩

/-- Third sample transaction. -/
def txC : Transaction := ⟨pyStr "e", pyStr "f", 4⟩

/-- The state of `st0` after submitting the three sample transactions. -/
def st3 : State :=
  (new_transaction
    ((new_transaction
      ((new_transaction st0 txA.sender txA.recipient txA.amount).1)
      txB.sender txB.recipient txB.amount).1)
    txC.sender txC.recipient txC.amount).1

/-- The block committed by the `/mine` route on `st3` under `Mz` at
timestamp `2`. -/
def minedB : Block :=
  ⟨2, 2, [txA, txB, txC, ⟨pyStr "0", [], 1⟩], 0, PyVal.vStr (pyStr "000000")⟩

/-- The state after mining on `st3`. -/
def st4 : State := ⟨[g0, minedB], [], []⟩

/-- The value `new_block` stores in `previous_hash`: the given argument
when it is truthy, and the digest of the last block when the argument is
omitted or falsy (Python's `previous_hash or self.hash(self.chain[-1])`). -/
def resolvedPrev (M : HashModel) (last : Block) : Option PyVal → PyVal
  | some v => if v.truthy then v else PyVal.vStr (hash M last)
  | none => PyVal.vStr (hash M last)

theorem take6_beq_iff (s : Str) :
    (s.take 6 == pyStr "000000") = true ↔ List.replicate 6 '0' <+: s := by
  have hrep : List.replicate 6 '0' = pyStr "000000" := by decide
  rw [beq_iff_eq, hrep]
  constructor
  · intro h
    exact ⟨s.drop 6, by rw [← h]; exact List.take_append_drop 6 s⟩
  · rintro ⟨t, ht⟩
    rw [← ht]
    show List.take (pyStr "000000").length (pyStr "000000" ++ t) = pyStr "000000"
    exact List.take_left _ _

theorem powSearch_spec (sha256hex : Str → Str) (lp : Nat) (lh : Str) :
    ∀ (fuel start p : Nat), powSearch sha256hex lp lh start fuel = some p →
      start ≤ p ∧ valid_proof sha256hex lp p lh = true ∧
        ∀ q, start ≤ q → q < p → valid_proof sha256hex lp q lh = false := by
  intro fuel
  induction fuel with
  | zero => intro start p h; simp [powSearch] at h
  | succ n ih =>
    intro start p h
    simp only [powSearch] at h
    by_cases hv : valid_proof sha256hex lp start lh = true
    · rw [if_pos hv] at h
      cases h
      exact ⟨Nat.le_refl _, hv, fun q hq1 hq2 => absurd hq1 (by omega)⟩
    · rw [if_neg hv] at h
      obtain ⟨h1, h2, h3⟩ := ih (start + 1) p h
      refine ⟨by omega, h2, fun q hq1 hq2 => ?_⟩
      rcases Nat.eq_or_lt_of_le hq1 with heq | hlt
      · rw [← heq]; exact Bool.eq_false_iff.mpr hv
      · exact h3 q (by omega) hq2

theorem validChainLoop_iff_chain' (M : HashModel) :
    ∀ (l : List Block) (a : Block),
      validChainLoop M a l = true ↔ List.Chain' (linkOK M) (a :: l) := by
  intro l
  induction l with
  | nil => intro a; simp [validChainLoop, List.chain'_singleton]
  | cons b rest ih =>
    intro a
    rw [List.chain'_cons]
    simp only [validChainLoop]
    by_cases h1 : b.previous_hash = PyVal.vStr (hash M a)
    · rw [if_neg (not_not_intro h1)]
      by_cases h2 : valid_proof M.sha256hex a.proof b.proof (hash M a) = true
      · have hc : ¬((!valid_proof M.sha256hex a.proof b.proof (hash M a)) = true) := by
          simp [h2]
        rw [if_neg hc, ih b]
        constructor
        · intro h; exact ⟨⟨h1, h2⟩, h⟩
        · intro h; exact h.2
      · have hx : valid_proof M.sha256hex a.proof b.proof (hash M a) = false :=
          Bool.eq_false_iff.mpr h2
        have hc : (!valid_proof M.sha256hex a.proof b.proof (hash M a)) = true := by
          simp [hx]
        rw [if_pos hc]
        constructor
        · intro h; exact absurd h (by simp)
        · intro hcon; exact absurd hcon.1.2 h2
    · rw [if_pos h1]
      constructor
      · intro h; exact absurd h (by simp)
      · intro hcon; exact absurd hcon.1.1 h1

theorem valid_chain_some_true_iff (M : HashModel) (c : List Block) (hne : c ≠ []) :
    valid_chain M c = some true ↔ List.Chain' (linkOK M) c := by
  match c with
  | [] => exact absurd rfl hne
  | a :: l =>
    simp only [valid_chain, Option.some.injEq]
    exact validChainLoop_iff_chain' M l a

theorem chain'_iff_adjacentOK (M : HashModel) (c : List Block) :
    List.Chain' (linkOK M) c ↔ adjacentOK M c := by
  rw [List.chain'_iff_get]
  constructor
  · intro h i hi0 hlt
    obtain ⟨j, rfl⟩ : ∃ j, i = j + 1 := ⟨i - 1, by omega⟩
    exact h j (by omega)
  · intro h i hi
    exact h (i + 1) (by omega) (by omega)

theorem resolveLoop_some_some (M : HashModel) :
    ∀ (fs : List FetchOutcome) (maxL : Int) (nc : Option (List Block)) (r : List Block),
      resolveLoop M maxL nc fs = some (some r) →
        nc = some r ∨ ∃ len, FetchOutcome.response 200 len r ∈ fs ∧ len > maxL ∧
          valid_chain M r = some true := by
  intro fs
  induction fs with
  | nil =>
    intro maxL nc r h
    simp only [resolveLoop, Option.some.injEq] at h
    exact Or.inl h
  | cons f rest ih =>
    intro maxL nc r h
    cases f with
    | exn => simp [resolveLoop] at h
    | response status len ch =>
      simp only [resolveLoop] at h
      by_cases hs : (status == 200) = true
      · rw [if_pos hs] at h
        obtain rfl : status = 200 := by simpa using hs
        by_cases hl : len > maxL
        · rw [if_pos hl] at h
          cases hv : valid_chain M ch with
          | none => rw [hv] at h; exact absurd h (by simp)
          | some bv =>
            cases bv with
            | true =>
              rw [hv] at h
              rcases ih len (some ch) r h with hnc | ⟨len2, hmem, hgt, hval⟩
              · obtain rfl : ch = r := by injection hnc
                refine Or.inr ⟨len, List.mem_cons_self _ _, hl, hv⟩
              · exact Or.inr ⟨len2, List.mem_cons_of_mem _ hmem, by omega, hval⟩
            | false =>
              rw [hv] at h
              rcases ih maxL nc r h with hnc | ⟨len2, hmem, hgt, hval⟩
              · exact Or.inl hnc
              · exact Or.inr ⟨len2, List.mem_cons_of_mem _ hmem, hgt, hval⟩
        · rw [if_neg hl] at h
          rcases ih maxL nc r h with hnc | ⟨len2, hmem, hgt, hval⟩
          · exact Or.inl hnc
          · exact Or.inr ⟨len2, List.mem_cons_of_mem _ hmem, hgt, hval⟩
      · rw [if_neg hs] at h
        rcases ih maxL nc r h with hnc | ⟨len2, hmem, hgt, hval⟩
        · exact Or.inl hnc
        · exact Or.inr ⟨len2, List.mem_cons_of_mem _ hmem, hgt, hval⟩

theorem resolveLoop_some_none (M : HashModel) :
    ∀ (fs : List FetchOutcome) (maxL : Int) (nc : Option (List Block)),
      resolveLoop M maxL nc fs = some none →
        nc = none ∧ ∀ len ch, FetchOutcome.response 200 len ch ∈ fs →
          len > maxL → valid_chain M ch ≠ some true := by
  intro fs
  induction fs with
  | nil =>
    intro maxL nc h
    simp only [resolveLoop, Option.some.injEq] at h
    exact ⟨h, by intro len ch hmem; exact absurd hmem (by simp)⟩
  | cons f rest ih =>
    intro maxL nc h
    cases f with
    | exn => simp [resolveLoop] at h
    | response status len ch =>
      simp only [resolveLoop] at h
      by_cases hs : (status == 200) = true
      · rw [if_pos hs] at h
        by_cases hl : len > maxL
        · rw [if_pos hl] at h
          cases hv : valid_chain M ch with
          | none => rw [hv] at h; exact absurd h (by simp)
          | some bv =>
            cases bv with
            | true =>
              rw [hv] at h
              obtain ⟨hnc, -⟩ := ih len (some ch) h
              exact absurd hnc (by simp)
            | false =>
              rw [hv] at h
              obtain ⟨hnc, hrest⟩ := ih maxL nc h
              refine ⟨hnc, ?_⟩
              intro len2 ch2 hmem hgt
              rcases List.mem_cons.mp hmem with heq | htail
              · obtain ⟨-, rfl, rfl⟩ :
                    (200 : Nat) = status ∧ len2 = len ∧ ch2 = ch := by
                  injection heq with a b c
                  exact ⟨a, b, c⟩
                simp [hv]
              · exact hrest len2 ch2 htail hgt
        · rw [if_neg hl] at h
          obtain ⟨hnc, hrest⟩ := ih maxL nc h
          refine ⟨hnc, ?_⟩
          intro len2 ch2 hmem hgt
          rcases List.mem_cons.mp hmem with heq | htail
          · obtain ⟨-, rfl, rfl⟩ :
                (200 : Nat) = status ∧ len2 = len ∧ ch2 = ch := by
              injection heq with a b c
              exact ⟨a, b, c⟩
            exact absurd hgt hl
          · exact hrest len2 ch2 htail hgt
      · rw [if_neg hs] at h
        obtain ⟨hnc, hrest⟩ := ih maxL nc h
        refine ⟨hnc, ?_⟩
        intro len2 ch2 hmem hgt
        rcases List.mem_cons.mp hmem with heq | htail
        · obtain rfl : (200 : Nat) = status := by
            injection heq with a b c
          exact absurd (by simp) hs
        · exact hrest len2 ch2 htail hgt

theorem resolveLoop_skip_non200 (M : HashModel) :
    ∀ (pre : List FetchOutcome) (maxL : Int) (nc : Option (List Block))
      (status : Nat) (len : Int) (ch : List Block) (post : List FetchOutcome),
      status ≠ 200 →
      resolveLoop M maxL nc (pre ++ FetchOutcome.response status len ch :: post)
        = resolveLoop M maxL nc (pre ++ post) := by
  intro pre
  induction pre with
  | nil =>
    intro maxL nc status len ch post hs
    simp only [List.nil_append, resolveLoop]
    rw [if_neg (by simpa using hs)]
  | cons f rest ih =>
    intro maxL nc status len ch post hs
    cases f with
    | exn => simp [resolveLoop]
    | response s2 l2 c2 =>
      simp only [List.cons_append, resolveLoop]
      by_cases h200 : (s2 == 200) = true
      · rw [if_pos h200, if_pos h200]
        by_cases hl : l2 > maxL
        · rw [if_pos hl, if_pos hl]
          cases hv : valid_chain M c2 with
          | none => rfl
          | some bv =>
            cases bv with
            | true => exact ih l2 (some c2) status len ch post hs
            | false => exact ih maxL nc status len ch post hs
        · rw [if_neg hl, if_neg hl]
          exact ih maxL nc status len ch post hs
      · rw [if_neg h200, if_neg h200]
        exact ih maxL nc status len ch post hs

theorem resolve_conflicts_chain_cases (M : HashModel) (c : List Block)
    (fs : List FetchOutcome) (c' : List Block) (r : Bool)
    (h : resolve_conflicts M c fs = some (c', r)) :
    c' = c ∨ valid_chain M c' = some true := by
  unfold resolve_conflicts at h
  split at h
  next heq => exact absurd h (by simp)
  next heq =>
    simp only [Option.some.injEq, Prod.mk.injEq] at h
    exact Or.inl h.1.symm
  next newChain heq =>
    rcases resolveLoop_some_some M fs _ none newChain heq with hnc | ⟨len, hmem, hgt, hval⟩
    · exact absurd hnc (by simp)
    · by_cases hemp : newChain.isEmpty = true
      · rw [if_pos hemp] at h
        simp only [Option.some.injEq, Prod.mk.injEq] at h
        exact Or.inl h.1.symm
      · rw [if_neg hemp] at h
        simp only [Option.some.injEq, Prod.mk.injEq] at h
        rw [← h.1]
        exact Or.inr hval

theorem freshBlockchain_eq (M : HashModel) (t : Nat) :
    freshBlockchain M t = some
      { chain := [{ index := 1, timestamp := t, transactions := [],
                    proof := 100, previous_hash := PyVal.vInt 1 }]
        current_transactions := []
        nodes := [] } := rfl

theorem new_block_fields (M : HashModel) (t : Nat) (s : State) (last : Block)
    (p : Nat) (ph : Option PyVal) (s' : State) (b : Block)
    (hlast : s.chain.getLast? = some last)
    (hnb : new_block M t s p ph = some (s', b)) :
    b.index = s.chain.length + 1
    ∧ b.transactions = s.current_transactions
    ∧ b.proof = p
    ∧ b.previous_hash = resolvedPrev M last ph
    ∧ s'.chain = s.chain ++ [b]
    ∧ s'.current_transactions = [] := by
  have hfb : s.chain.getLast?.map (fun x => PyVal.vStr (hash M x))
      = some (PyVal.vStr (hash M last)) := by
    rw [hlast]; rfl
  cases ph with
  | none =>
    simp only [new_block, hfb] at hnb
    simp only [Option.some.injEq, Prod.mk.injEq] at hnb
    obtain ⟨rfl, rfl⟩ := hnb
    exact ⟨rfl, rfl, rfl, rfl, rfl, rfl⟩
  | some v =>
    by_cases hv : v.truthy = true
    · simp only [new_block, hv, if_true] at hnb
      simp only [Option.some.injEq, Prod.mk.injEq] at hnb
      obtain ⟨rfl, rfl⟩ := hnb
      refine ⟨rfl, rfl, rfl, ?_, rfl, rfl⟩
      show v = resolvedPrev M last (some v)
      simp only [resolvedPrev]
      rw [if_pos hv]
    · simp only [new_block] at hnb
      rw [if_neg hv, hfb] at hnb
      simp only [Option.some.injEq, Prod.mk.injEq] at hnb
      obtain ⟨rfl, rfl⟩ := hnb
      refine ⟨rfl, rfl, rfl, ?_, rfl, rfl⟩
      show PyVal.vStr (hash M last) = resolvedPrev M last (some v)
      simp only [resolvedPrev]
      rw [if_neg hv]

theorem mine_result (M : HashModel) (t : Nat) (nid : Str) (s : State)
    (fuel : Nat) (s' : State) (b : Block)
    (hm : mine M t nid s fuel = some (s', b)) :
    ∃ last p, s.chain.getLast? = some last
      ∧ proof_of_work M last fuel = some p
      ∧ b.proof = p
      ∧ b.previous_hash = PyVal.vStr (hash M last)
      ∧ b.transactions = s.current_transactions ++ [⟨pyStr "0", nid, 1⟩]
      ∧ s'.chain = s.chain ++ [b]
      ∧ s'.current_transactions = [] := by
  unfold mine at hm
  split at hm
  next => exact absurd hm (by simp)
  next last heqlast =>
    split at hm
    next => exact absurd hm (by simp)
    next p heqp =>
      have hl1 : ((new_transaction s (pyStr "0") nid 1).1).chain.getLast? = some last := heqlast
      obtain ⟨-, htx, hproof, hph, hchain, hct⟩ :=
        new_block_fields M t _ last p _ s' b hl1 hm
      refine ⟨last, p, heqlast, heqp, hproof, ?_, htx, hchain, hct⟩
      rw [hph]
      simp only [resolvedPrev]
      split <;> rfl

/-- C2: every ledger state reachable from a fresh `Blockchain` through
the documented operations satisfies the chain-linking invariant: for
every index `i > 0`, `chain[i].previous_hash` equals the digest of
`chain[i-1]` and `valid_proof(chain[i-1].proof, chain[i].proof,
hash(chain[i-1]))` holds. -/
theorem reachable_chain_linked (M : HashModel) (s : State) (h : Reachable M s) :
    adjacentOK M s.chain := by
  rw [← chain'_iff_adjacentOK]
  induction h with
  | init t s1 hinit =>
    rw [freshBlockchain_eq M t] at hinit
    injection hinit with h1
    rw [← h1]
    exact List.chain'_singleton _
  | tx s1 snd rcp amt hr ih => exact ih
  | mined s1 t nid fuel s' b hr hm ih =>
    obtain ⟨last, p, hlast, hpow, hproof, hprev, htx, hchain, hct⟩ :=
      mine_result M t nid s1 fuel s' b hm
    have hchain2 : s'.chain = s1.chain ++ [b] := hchain
    rw [hchain2, List.chain'_append]
    refine ⟨ih, List.chain'_singleton _, ?_⟩
    intro x hx y hy
    rw [hlast] at hx
    have hx2 : some last = some x := hx
    injection hx2 with hx3
    have hy2 : some b = some y := hy
    injection hy2 with hy3
    rw [← hx3, ← hy3]
    refine ⟨hprev, ?_⟩
    rw [hproof]
    obtain ⟨-, hv, -⟩ := powSearch_spec M.sha256hex last.proof (hash M last) fuel 0 p hpow
    exact hv
  | consensus s1 fs c r hr hres ih =>
    show List.Chain' (linkOK M) c
    rcases resolve_conflicts_chain_cases M s1.chain fs c r hres with hc | hval
    · rw [hc]; exact ih
    · have hne : c ≠ [] := by
        intro hnil
        rw [hnil] at hval
        simp [valid_chain] at hval
      exact (valid_chain_some_true_iff M c hne).mp hval

/-- Witness for C2: the two-block state reached by constructing a node
and mining once under the concrete model `Mz` is reachable and satisfies
the chain-linking invariant. -/
theorem reachable_chain_linked_witness :
    Reachable Mz st2 ∧ adjacentOK Mz st2.chain :=
  have hr : Reachable Mz st2 :=
    Reachable.mined st0 1 [] 1 st2 b1 (Reachable.init 0 st0 (by decide)) (by decide)
  ⟨hr, reachable_chain_linked Mz st2 hr⟩

/-- C1: when `resolve_conflicts` returns normally, it replaces the chain
if and only if some fetched response has status 200, a reported length
strictly greater than the local chain length, and a chain accepted by
`valid_chain`; on replacement it returns `true` and the chain becomes a
qualifying peer chain wholesale, otherwise it returns `false` and the
local chain is unchanged. -/
theorem resolve_conflicts_spec (M : HashModel) (c : List Block)
    (fetches : List FetchOutcome) (c' : List Block) (r : Bool)
    (h : resolve_conflicts M c fetches = some (c', r)) :
    (r = true ↔ ∃ len ch, FetchOutcome.response 200 len ch ∈ fetches ∧
        len > (c.length : Int) ∧ valid_chain M ch = some true)
    ∧ (r = true → ∃ len, FetchOutcome.response 200 len c' ∈ fetches ∧
        len > (c.length : Int) ∧ valid_chain M c' = some true)
    ∧ (r = false → c' = c) := by
  unfold resolve_conflicts at h
  split at h
  next heq => exact absurd h (by simp)
  next heq =>
    simp only [Option.some.injEq, Prod.mk.injEq] at h
    obtain ⟨rfl, rfl⟩ := h
    obtain ⟨-, hnone⟩ := resolveLoop_some_none M fetches _ none heq
    refine ⟨?_, ?_, fun _ => rfl⟩
    · constructor
      · intro hfalse; exact absurd hfalse (by simp)
      · rintro ⟨len, ch, hmem, hgt, hval⟩
        exact absurd hval (hnone len ch hmem hgt)
    · intro hfalse; exact absurd hfalse (by simp)
  next newChain heq =>
    rcases resolveLoop_some_some M fetches _ none newChain heq with hnc | ⟨len, hmem, hgt, hval⟩
    · exact absurd hnc (by simp)
    · have hne : newChain ≠ [] := by
        intro hnil; rw [hnil] at hval; simp [valid_chain] at hval
      have hemp : ¬(newChain.isEmpty = true) := by
        cases newChain with
        | nil => exact absurd rfl hne
        | cons a l => simp
      rw [if_neg hemp] at h
      simp only [Option.some.injEq, Prod.mk.injEq] at h
      obtain ⟨rfl, rfl⟩ := h
      refine ⟨?_, ?_, ?_⟩
      · exact iff_of_true rfl ⟨len, newChain, hmem, hgt, hval⟩
      · intro
        exact ⟨len, hmem, hgt, hval⟩
      · intro hcon; exact absurd hcon (by simp)

/-- Witness for C1: with a local one-block chain and a single peer
reporting length 5 with a valid one-block chain, the chain is replaced
and the call returns `true`. -/
theorem resolve_conflicts_spec_witness :
    resolve_conflicts Mz [g0] [FetchOutcome.response 200 5 [b1]] = some ([b1], true)
    ∧ (true = true ↔ ∃ len ch, FetchOutcome.response 200 len ch ∈
        [FetchOutcome.response 200 5 [b1]] ∧ len > (([g0] : List Block).length : Int)
        ∧ valid_chain Mz ch = some true) :=
  ⟨by decide,
   (resolve_conflicts_spec Mz [g0] [FetchOutcome.response 200 5 [b1]] [b1] true (by decide)).1⟩

/-- C3: `valid_proof` holds exactly when the digest of the concatenation
of the previous proof, the candidate proof and the previous hash begins
with six zero characters, and a successful `proof_of_work` search
returns a valid proof that is minimal (the search starts at 0 and
increments by 1). -/
theorem valid_proof_pow_spec (M : HashModel) (lp pr : Nat) (lh : Str)
    (b : Block) (fuel p : Nat)
    (hpow : proof_of_work M b fuel = some p) :
    (valid_proof M.sha256hex lp pr lh = true ↔
      beginsWithSixZeros (M.sha256hex (pyStr (toString lp) ++ pyStr (toString pr) ++ lh)))
    ∧ valid_proof M.sha256hex b.proof p (hash M b) = true
    ∧ ∀ q, q < p → valid_proof M.sha256hex b.proof q (hash M b) = false := by
  obtain ⟨-, h2, h3⟩ := powSearch_spec M.sha256hex b.proof (hash M b) fuel 0 p hpow
  exact ⟨take6_beq_iff _, h2, fun q hq => h3 q (Nat.zero_le q) hq⟩

/-- Witness for C3: under `Mz` the search terminates at once and the
returned proof is valid. -/
theorem valid_proof_pow_spec_witness :
    proof_of_work Mz g0 1 = some 0
    ∧ valid_proof Mz.sha256hex g0.proof 0 (hash Mz g0) = true :=
  ⟨by decide, (valid_proof_pow_spec Mz 0 0 [] g0 1 0 (by decide)).2.1⟩

/-- C4: for a non-empty chain, `valid_chain` returns `true` exactly when
every adjacent pair is correctly hash-linked and proof-valid; block 0 is
never checked against a predecessor and a one-block chain is valid. -/
theorem valid_chain_spec (M : HashModel) (c : List Block) (hne : c ≠ []) :
    (valid_chain M c = some true ↔ adjacentOK M c)
    ∧ (c.length = 1 → valid_chain M c = some true) := by
  refine ⟨?_, ?_⟩
  · rw [valid_chain_some_true_iff M c hne]
    exact chain'_iff_adjacentOK M c
  · intro hlen
    cases c with
    | nil => exact absurd rfl hne
    | cons a t =>
      cases t with
      | nil => rfl
      | cons a2 t2 => simp only [List.length_cons] at hlen; omega

/-- Witness for C4: the one-block chain `[g0]` is non-empty and valid. -/
theorem valid_chain_spec_witness :
    ([g0] : List Block) ≠ [] ∧ valid_chain Mz [g0] = some true :=
  ⟨by decide, (valid_chain_spec Mz [g0] (by decide)).2 (by decide)⟩

/-- C5 (amended): `new_block` appends a block with index `len(chain)+1`,
the entire pending pool as transactions, the given proof, and a
`previous_hash` that is the given value when that value is truthy and
the digest of the last block when the argument is omitted or falsy; the
pool is cleared, and the submit-three-then-mine scenario commits exactly
the three transactions plus the reward transaction and empties the
pool. -/
theorem new_block_spec :
    (∀ (M : HashModel) (t : Nat) (s : State) (last : Block) (p : Nat)
        (ph : Option PyVal) (s' : State) (b : Block),
      s.chain.getLast? = some last →
      new_block M t s p ph = some (s', b) →
      b.index = s.chain.length + 1
        ∧ b.transactions = s.current_transactions
        ∧ b.proof = p
        ∧ b.previous_hash = resolvedPrev M last ph
        ∧ s'.chain = s.chain ++ [b]
        ∧ s'.current_transactions = [])
    ∧ (∀ (M : HashModel) (t : Nat) (nid : Str) (s : State)
        (tx1 tx2 tx3 : Transaction) (fuel : Nat) (s' : State) (b : Block),
      s.current_transactions = [] →
      mine M t nid
        ((new_transaction
          ((new_transaction
            ((new_transaction s tx1.sender tx1.recipient tx1.amount).1)
            tx2.sender tx2.recipient tx2.amount).1)
          tx3.sender tx3.recipient tx3.amount).1) fuel = some (s', b) →
      b.transactions = [tx1, tx2, tx3, ⟨pyStr "0", nid, 1⟩]
        ∧ s'.current_transactions = []) := by
  constructor
  · intro M t s last p ph s' b hlast hnb
    exact new_block_fields M t s last p ph s' b hlast hnb
  · intro M t nid s tx1 tx2 tx3 fuel s' b hempty hm
    obtain ⟨last, p, -, -, -, -, htx, -, hct⟩ :=
      mine_result M t nid _ fuel s' b hm
    refine ⟨?_, hct⟩
    have h3 : ((new_transaction
        ((new_transaction
          ((new_transaction s tx1.sender tx1.recipient tx1.amount).1)
          tx2.sender tx2.recipient tx2.amount).1)
        tx3.sender tx3.recipient tx3.amount).1).current_transactions
        = [tx1, tx2, tx3] := by
      simp [new_transaction, hempty]
    rw [htx, h3]
    rfl

/-- Counterexample to C5 as stated: the claim says the committed block's
`previous_hash` is "the given value or hash(lastBlock) when omitted",
but for the given (falsy) empty-string value the code stores the digest
of the last block instead of the given value. -/
theorem new_block_falsy_previous_hash :
    (new_block Md 1 st0 5 (some (PyVal.vStr []))).map (fun q => q.2.previous_hash)
        = some (PyVal.vStr (pyStr "d"))
    ∧ PyVal.vStr (pyStr "d") ≠ PyVal.vStr [] := by decide

/-- Witness for C5: both parts of the amended statement applied to
concrete inputs under `Mz`. -/
theorem new_block_spec_witness :
    (st0.chain.getLast? = some g0
      ∧ new_block Mz 1 st0 5 none = some
          ({ chain := [g0, ⟨2, 1, [], 5, PyVal.vStr (pyStr "000000")⟩],
             current_transactions := [], nodes := [] },
           ⟨2, 1, [], 5, PyVal.vStr (pyStr "000000")⟩)
      ∧ (⟨2, 1, [], 5, PyVal.vStr (pyStr "000000")⟩ : Block).previous_hash
          = resolvedPrev Mz g0 none)
    ∧ (st0.current_transactions = []
      ∧ mine Mz 2 [] st3 1 = some (st4, minedB)
      ∧ minedB.transactions = [txA, txB, txC, ⟨pyStr "0", [], 1⟩]
      ∧ st4.current_transactions = []) :=
  ⟨⟨by decide, by decide,
    (new_block_spec.1 Mz 1 st0 g0 5 none
      { chain := [g0, ⟨2, 1, [], 5, PyVal.vStr (pyStr "000000")⟩],
        current_transactions := [], nodes := [] }
      ⟨2, 1, [], 5, PyVal.vStr (pyStr "000000")⟩
      (by decide) (by decide)).2.2.2.1⟩,
   ⟨by decide, by decide,
    (new_block_spec.2 Mz 2 [] st0 txA txB txC 1 st4 minedB (by decide) (by decide)).1,
    (new_block_spec.2 Mz 2 [] st0 txA txB txC 1 st4 minedB (by decide) (by decide)).2⟩⟩

/-- C6 (amended): a non-success (non-200) response from a peer only
causes that peer to be skipped — the result of the resolution pass is
the same as if that peer were absent.  (A transport failure, by
contrast, propagates and aborts the pass; see the counterexample.) -/
theorem resolve_conflicts_skips_non200 (M : HashModel) (c : List Block)
    (pre post : List FetchOutcome) (status : Nat) (len : Int) (ch : List Block)
    (hs : status ≠ 200) :
    resolve_conflicts M c (pre ++ FetchOutcome.response status len ch :: post)
      = resolve_conflicts M c (pre ++ post) := by
  unfold resolve_conflicts
  rw [resolveLoop_skip_non200 M pre (c.length : Int) none status len ch post hs]

/-- Witness for C6: a 404 response in front of a qualifying peer is
skipped and does not change the outcome. -/
theorem resolve_conflicts_skips_non200_witness :
    (404 : Nat) ≠ 200
    ∧ resolve_conflicts Mz [g0]
        ([] ++ FetchOutcome.response 404 9 [] :: [FetchOutcome.response 200 5 [b1]])
      = resolve_conflicts Mz [g0] ([] ++ [FetchOutcome.response 200 5 [b1]]) :=
  ⟨by decide,
   resolve_conflicts_skips_non200 Mz [g0] [] [FetchOutcome.response 200 5 [b1]]
     404 9 [] (by decide)⟩

/-- Counterexample to C6 as stated: `requests.get` is not wrapped in any
exception handler, so a transport failure for the first peer aborts the
whole resolution pass (modelled by `none`) even though a later peer has
a qualifying chain — the operation does not return normally and the
remaining peer is never consulted. -/
theorem resolve_conflicts_aborts_on_transport_failure :
    resolve_conflicts Mz [g0] [FetchOutcome.exn, FetchOutcome.response 200 5 [b1]]
      = none := by decide

/-- C7 (amended): the two address forms normalise to the same single
peer entry; `register_node` raises `ValueError` only when both the
parsed netloc and path are empty (such as for the empty string), while
`"not a url"` is accepted and inserted as-is as a path. -/
theorem register_node_spec :
    register_node [] (pyStr "192.168.0.1:5000") = some [pyStr "192.168.0.1:5000"]
    ∧ register_node [] (pyStr "http://192.168.0.1:5000") = some [pyStr "192.168.0.1:5000"]
    ∧ register_node [] (pyStr "not a url") = some [pyStr "not a url"]
    ∧ register_node [] (pyStr "") = none := by decide

/-- Counterexample to C7 as stated: `register_node("not a url")` does
not fail — `urlparse` leaves the whole string in `path`, which is
non-empty, so the string is inserted into the peer set. -/
theorem register_node_accepts_not_a_url :
    register_node [] (pyStr "not a url") ≠ none
    ∧ register_node [] (pyStr "not a url") = some [pyStr "not a url"] := by decide

/-- C8: a freshly constructed `Blockchain` has exactly one block — the
genesis block with index 1, proof 100, the integer sentinel `1` as
`previous_hash` and no transactions — and an empty pending pool. -/
theorem fresh_blockchain_genesis (M : HashModel) (t : Nat) :
    freshBlockchain M t = some
      { chain := [{ index := 1, timestamp := t, transactions := [], proof := 100,
                    previous_hash := PyVal.vInt 1 }]
        current_transactions := []
        nodes := [] } :=
  freshBlockchain_eq M t

/-- C9: `resolve_conflicts` trusts the peer-reported `length` field: a
peer whose response claims length 100 but whose chain has a single
(valid) block replaces a two-block local chain, and the call returns
`true`. -/
theorem resolve_conflicts_adopts_shorter_reported_longer :
    resolve_conflicts Mz [g0, b1] [FetchOutcome.response 200 100 [shortB]]
        = some ([shortB], true)
    ∧ ([shortB] : List Block).length < ([g0, b1] : List Block).length
    ∧ valid_chain Mz [shortB] = some true := by decide

/-- C10: `valid_chain` reads `chain[0]` before its loop, so it raises
`IndexError` (embedded as `none`) exactly on the empty chain and returns
a boolean on every non-empty chain. -/
theorem valid_chain_total_iff_nonempty (M : HashModel) (c : List Block) :
    valid_chain M c = none ↔ c = [] := by
  cases c <;> simp [valid_chain]

end Blockchain
